import Mathlib

/-!
Verification of the dissbson streaming document indexer and script-driven
export pipeline against its natural-language specification.

The development shallowly embeds the core of the repository:

- the boundary scanner `index_file` from src/main.rs, modelled as a
  fuel-indexed loop over an in-memory byte stream (bytes are `Nat` values
  below 256, machine integers are `Nat`/`Int` with explicit bounds);
- the index store (postcard varint serialization, COBS framing, and an
  abstract zlib collaborator passed in as a compress/decompress pair);
- the decision in `main` that either loads a persisted index or scans;
- the per-file export loop of `main`, modelled as an event interleaving
  semantics over the shared `chunk_ct` counter and the output directory;
- the Lua value bridge from src/lua_engine/mod.rs (`LuaBsonRepr`,
  `LuaObjectIdRepr`, `load_document`, `get_document`).

Bson documents and Lua tables are mutually inductive with their own list
types so that every conversion is structural and evaluates by kernel
reduction. Rust panics are modelled as `Option.none` results; fallible
conversions return `Except`.
-/

set_option autoImplicit false

namespace Dissbson

/-! ## Postcard varint encoding (serde of `Vec<DocOffset>`)

The persisted index is `postcard::to_allocvec_cobs(&Vec<DocOffset>)`.
Postcard serializes `usize` as an LEB128 varint of at most 10 bytes for a
64 bit target, a sequence as a varint length followed by its elements, and
a struct as its fields in order. The encoder below is the LEB128 loop with
the 10 byte cap made explicit as structural fuel; for values below 2 ^ 64
it agrees with unbounded LEB128. The decoder accepts any terminated
varint; postcard additionally rejects varints longer than 10 bytes, a case
that never arises for encoder output (see `varintEncode_length_le`). -/

def varintEncodeAux : Nat → Nat → List Nat
  | 0, n => [n % 128]
  | fuel + 1, n => if n < 128 then [n] else (n % 128 + 128) :: varintEncodeAux fuel (n / 128)

def varintEncode (n : Nat) : List Nat :=
  varintEncodeAux 10 n

def varintDecode : List Nat → Option (Nat × List Nat)
  | [] => none
  | b :: rest =>
    if b < 128 then some (b, rest)
    else
      match varintDecode rest with
      | some (m, rest2) => some (m * 128 + (b - 128), rest2)
      | none => none

/-- Boundary record of the scanner: `struct DocOffset { offset: usize, size: usize }`. -/
structure DocOffset where
  offset : Nat
  size : Nat
deriving DecidableEq, Repr

/-- Postcard serialization of one `DocOffset`: the two `usize` fields in order. -/
def encodeRecord (r : DocOffset) : List Nat :=
  varintEncode r.offset ++ varintEncode r.size

/-- Postcard serialization of `Vec<DocOffset>`: varint length then the elements. -/
def postcardEncodeIndex (xs : List DocOffset) : List Nat :=
  varintEncode xs.length ++ xs.flatMap encodeRecord

def decodeRecords : Nat → List Nat → Option (List DocOffset × List Nat)
  | 0, bs => some ([], bs)
  | k + 1, bs =>
    match varintDecode bs with
    | none => none
    | some (off, bs1) =>
      match varintDecode bs1 with
      | none => none
      | some (sz, bs2) =>
        match decodeRecords k bs2 with
        | none => none
        | some (recs, bs3) => some (⟨off, sz⟩ :: recs, bs3)

/-- Postcard deserialization of `Vec<DocOffset>`. Like `postcard::from_bytes`,
trailing bytes after the decoded value are ignored rather than rejected. -/
def postcardDecodeIndex (bs : List Nat) : Option (List DocOffset) :=
  match varintDecode bs with
  | none => none
  | some (n, rest) =>
    match decodeRecords n rest with
    | none => none
    | some (recs, _) => some recs

/-! ## COBS framing

`postcard::to_allocvec_cobs` / `from_bytes_cobs` frame the payload with
consistent overhead byte stuffing. The encoder below is the stateful
encoder of the cobs crate: bytes are appended to the current block; a zero
byte closes the block with header length + 1; a block reaching 254 data
bytes is flushed eagerly with header 255 and no implied zero. The decoder
reads a header, copies the data bytes, and re-inserts a zero after every
block whose header is below 255 and not last. Decoding is fuel-indexed by
the input length, which is an upper bound on the number of steps because
every step consumes at least one byte, so the fuel never runs out. -/

def cobsEncodeGo (block : List Nat) : List Nat → List Nat
  | [] => (block.length + 1) :: block
  | b :: rest =>
    if b = 0 then ((block.length + 1) :: block) ++ cobsEncodeGo [] rest
    else if block.length + 1 < 254 then cobsEncodeGo (block ++ [b]) rest
    else (255 :: (block ++ [b])) ++ cobsEncodeGo [] rest

def cobsEncode (data : List Nat) : List Nat :=
  cobsEncodeGo [] data

def cobsDecodeGo : Nat → List Nat → Option (List Nat)
  | _, [] => some []
  | 0, _ :: _ => none
  | fuel + 1, c :: rest =>
    if c = 0 then none
    else if rest.length < c - 1 then none
    else if rest.drop (c - 1) = [] then some (rest.take (c - 1))
    else
      match cobsDecodeGo fuel (rest.drop (c - 1)) with
      | none => none
      | some tail => some (rest.take (c - 1) ++ (if c < 255 then 0 :: tail else tail))

def cobsDecode (bs : List Nat) : Option (List Nat) :=
  cobsDecodeGo bs.length bs

/-! ## The index store of src/main.rs

`main` persists the index with `postcard::to_allocvec_cobs` piped through a
`ZlibEncoder` (lines 124 to 128), and `load_index_data` reads the file
through a `ZlibDecoder` and then `postcard::from_bytes_cobs` (lines 211 to
230). The spec treats compression as an opaque external collaborator, so
the zlib pair is passed in as functions; `none` from `decompress` models a
decompression error. A `none` result anywhere models the propagated
`DissectError`. -/

def save_index (compress : List Nat → List Nat) (xs : List DocOffset) : List Nat :=
  compress (cobsEncode (postcardEncodeIndex xs))

def from_bytes_cobs_offsets (bs : List Nat) : Option (List DocOffset) :=
  match cobsDecode bs with
  | none => none
  | some dat => postcardDecodeIndex dat

def load_index_data (decompress : List Nat → Option (List Nat))
    (file : List Nat) : Option (List DocOffset) :=
  match decompress file with
  | none => none
  | some dat => from_bytes_cobs_offsets dat

/-- Decision made by `main` (src/main.rs lines 118 to 130): when the
`idx.dat` file exists and `--inspect` was not given, the result of
`load_index_data` is used directly, with its error propagated by `?`;
only otherwise is the source file scanned. `none` models an aborted run. -/
def acquireIndex (idxFileExists inspect : Bool)
    (loadResult scanResult : Option (List DocOffset)) : Option (List DocOffset) :=
  if idxFileExists && !inspect then loadResult else scanResult

/-! ## The boundary scanner `index_file` (src/main.rs lines 240 to 264)

The loop reads up to 4 bytes into a reused buffer, breaks when zero bytes
are read, parses the buffer as a little-endian 4 byte integer converted to
`i32` by `try_into` (failing for values of 2 ^ 31 and above), pushes a
record at `stream_position - 4`, and seeks by `size - 4` from the current
position. There is no check that `size` is at least 4 and no check that a
partial read refilled the whole buffer: a short read leaves stale bytes in
the buffer, exactly as in the source. The loop is fuel-indexed because its
termination depends on the input; `outOfFuel` for every fuel value means
the source loop diverges. A negative seek target is an io error. On normal
exit the reader is rewound, so `ok` carries final position 0. -/

def leBytes4 (n : Nat) : List Nat :=
  [n % 256, n / 256 % 256, n / 65536 % 256, n / 16777216 % 256]

def leU32 (b : List Nat) : Nat :=
  b.getD 0 0 + 256 * b.getD 1 0 + 65536 * b.getD 2 0 + 16777216 * b.getD 3 0

inductive ScanErr where
  | intConversion
  | seekNegative
deriving DecidableEq, Repr

inductive ScanResult where
  | ok (offsets : List DocOffset) (count : Nat) (finalPos : Nat)
  | err (e : ScanErr)
  | outOfFuel
deriving DecidableEq, Repr

def indexFileLoop (data : List Nat) : Nat → Nat → List Nat → Nat → List DocOffset → ScanResult
  | 0, _, _, _, _ => .outOfFuel
  | fuel + 1, pos, buf, count, acc =>
    let chunk := (data.drop pos).take 4
    if chunk.length = 0 then .ok acc.reverse count 0
    else
      let buf2 := chunk ++ buf.drop chunk.length
      let v := leU32 buf2
      if 2 ^ 31 ≤ v then .err .intConversion
      else
        let pos2 := pos + chunk.length
        let target : Int := (pos2 : Int) + ((v : Int) - 4)
        if target < 0 then .err .seekNegative
        else indexFileLoop data fuel target.toNat buf2 (count + 1) (⟨pos2 - 4, v⟩ :: acc)

def index_file (fuel : Nat) (data : List Nat) : ScanResult :=
  indexFileLoop data fuel 0 [0, 0, 0, 0] 0 []

/-- Expected index of a stream laid out as consecutive records starting at
a given position: each record contributes its start offset and length. -/
def expectedIndex : List (List Nat) → Nat → List DocOffset
  | [], _ => []
  | r :: rs, pos => ⟨pos, r.length⟩ :: expectedIndex rs (pos + r.length)

/-- Well-formed record: at least 4 bytes long, small enough for `i32`, and
its first 4 bytes are the little-endian encoding of its own length. -/
def WFRecord (r : List Nat) : Prop :=
  4 ≤ r.length ∧ r.length < 2 ^ 31 ∧ r.take 4 = leBytes4 r.length

instance (r : List Nat) : Decidable (WFRecord r) := by
  unfold WFRecord
  exact inferInstance

/-! ## The per-file export loop of `main` (src/main.rs lines 180 to 202)

Batches run on a worker pool. Each batch writes one file per document
named by the pair (current value of the shared `chunk_ct` counter, index
of the document inside the batch) - the source formats this pair into a
string with a dash, which is injective on pairs - and increments the
counter after the batch. `fsWrite` models `OpenOptions` create + truncate:
writing an existing name replaces the file. A schedule is a list of write
and increment events; `ValidSchedule` says the schedule is an interleaving
of the per-batch event sequences, which is what the worker pool permits.
A document payload is modelled as a `Nat`. -/

inductive ExportEvent where
  | wr (b nth : Nat)
  | inc (b : Nat)
deriving DecidableEq, Repr

def eventBatch : ExportEvent → Nat
  | .wr b _ => b
  | .inc b => b

structure ExportState where
  chunk_ct : Nat
  files : List ((Nat × Nat) × Nat)
deriving DecidableEq, Repr

def fsWrite (files : List ((Nat × Nat) × Nat)) (name : Nat × Nat) (doc : Nat) :
    List ((Nat × Nat) × Nat) :=
  if name ∈ files.map Prod.fst
  then files.map (fun e => if e.1 = name then (name, doc) else e)
  else files ++ [(name, doc)]

def exportStep (batches : List (List Nat)) (st : ExportState) (e : ExportEvent) : ExportState :=
  match e with
  | .wr b nth =>
    { st with files := fsWrite st.files (st.chunk_ct, nth) ((batches.getD b []).getD nth 0) }
  | .inc _ => { st with chunk_ct := st.chunk_ct + 1 }

def runExport (batches : List (List Nat)) (sched : List ExportEvent) : ExportState :=
  sched.foldl (exportStep batches) ⟨0, []⟩

/-- Events of one batch as the code orders them: all writes, then the
counter increment. -/
def batchEvents (b len : Nat) : List ExportEvent :=
  (List.range len).map (ExportEvent.wr b) ++ [ExportEvent.inc b]

/-- A schedule is valid when it mentions only existing batches and its
restriction to each batch is exactly that batch run to completion in
order. These are the interleavings the worker pool can produce. -/
def ValidSchedule (batches : List (List Nat)) (sched : List ExportEvent) : Prop :=
  (∀ e ∈ sched, eventBatch e < batches.length) ∧
  ∀ b, b < batches.length →
    sched.filter (fun e => eventBatch e == b) = batchEvents b (batches.getD b []).length

/-- Sequential schedule: batches run one after another with no overlap. -/
def seqScheduleAux : Nat → List (List Nat) → List ExportEvent
  | _, [] => []
  | b, batch :: rest => batchEvents b batch.length ++ seqScheduleAux (b + 1) rest

def seqSchedule (batches : List (List Nat)) : List ExportEvent :=
  seqScheduleAux 0 batches

/-- Directory contents after a collision-free export: one file per record,
named by batch number and in-batch position. -/
def canonicalFilesAux : Nat → List (List Nat) → List ((Nat × Nat) × Nat)
  | _, [] => []
  | b, batch :: rest =>
    (List.range batch.length).map (fun nth => ((b, nth), batch.getD nth 0)) ++
      canonicalFilesAux (b + 1) rest

def totalDocs (batches : List (List Nat)) : Nat :=
  (batches.map List.length).sum

/-! ## The Lua bridge of src/lua_engine/mod.rs

Bson values and Lua values are mutually inductive with their own list
types so every conversion below is structural and evaluates by kernel
reduction. Payload conventions: a 64 bit float is carried as its bit
pattern (a `Nat`), because the bridge only ever passes doubles through
unchanged; the `DateTime` payload is `timestamp_millis` as an `Int`; the
regular expression, decimal and timestamp variants carry the string that
the host `Debug` formatter would render, since the bridge only ever
formats them for display; an `ObjectId` is its 12 raw bytes. -/

mutual
inductive Bson where
  | double (bits : Nat)
  | string (s : String)
  | document (d : BsonFields)
  | array (a : BsonElems)
  | boolean (b : Bool)
  | null
  | int32 (i : Int)
  | int64 (i : Int)
  | binary (bytes : List Nat)
  | dateTime (millis : Int)
  | objectId (bytes : List Nat)
  | javaScriptCode (s : String)
  | symbol (s : String)
  | regularExpression (dbg : String)
  | decimal128 (dbg : String)
  | timestamp (dbg : String)
  | maxKey
  | minKey
deriving DecidableEq, Repr

inductive BsonFields where
  | nil
  | cons (k : String) (v : Bson) (rest : BsonFields)
deriving DecidableEq, Repr

inductive BsonElems where
  | nil
  | cons (v : Bson) (rest : BsonElems)
deriving DecidableEq, Repr
end

mutual
inductive LuaValue where
  | nil
  | boolean (b : Bool)
  | integer (i : Int)
  | number (bits : Nat)
  | str (s : String)
  | table (entries : LuaEntries)
deriving DecidableEq, Repr

inductive LuaEntries where
  | nil
  | cons (k v : LuaValue) (rest : LuaEntries)
deriving DecidableEq, Repr
end

/-- Conversion errors of the bridge, mirroring `rlua::Error`. The
`fromLuaConversion` constructor carries the from, to and message parts of
`rlua::Error::FromLuaConversionError`. -/
inductive LuaErr where
  | fromLuaConversion (src dst msg : String)
deriving DecidableEq, Repr

def LuaValue.typeName : LuaValue → String
  | .nil => "nil"
  | .boolean _ => "boolean"
  | .integer _ => "integer"
  | .number _ => "number"
  | .str _ => "string"
  | .table _ => "table"

/-- Lua raw table indexing: the value stored under a key, `nil` if absent. -/
def tableGet : LuaEntries → LuaValue → LuaValue
  | .nil, _ => .nil
  | .cons k2 v2 rest, k => if k2 = k then v2 else tableGet rest k

/-- Lua table assignment: replace the value of an existing key in place,
otherwise append the new entry. -/
def tableSet : LuaEntries → LuaValue → LuaValue → LuaEntries
  | .nil, k, v => .cons k v .nil
  | .cons k2 v2 rest, k, v =>
    if k2 = k then .cons k2 v rest else .cons k2 v2 (tableSet rest k v)

def entriesLength : LuaEntries → Nat
  | .nil => 0
  | .cons _ _ rest => entriesLength rest + 1

def entryKeys : LuaEntries → List LuaValue
  | .nil => []
  | .cons k _ rest => k :: entryKeys rest

def appendEntries : LuaEntries → LuaEntries → LuaEntries
  | .nil, t => t
  | .cons k v rest, t => .cons k v (appendEntries rest t)

/-- Stand-in for the host float formatter used when a float is coerced to
a string; no claim exercises float keys, and the only property the proofs
use is that the rendering of a float is never the literal "ObjectId",
which also holds of the digit strings the host produces. -/
def floatDisplay (bits : Nat) : String :=
  "f64x" ++ toString bits

/-- String coercion of `rlua`: strings are themselves, integers and
numbers render as in Lua `tostring`, everything else fails with a
conversion error (booleans and nil are not coerced). -/
def coerceToString : LuaValue → Except LuaErr String
  | .str s => .ok s
  | .integer i => .ok (toString i)
  | .number bits => .ok (floatDisplay bits)
  | v => .error (.fromLuaConversion v.typeName "String" "expected string or coercible value")

/-- Sequence part of a table as `rlua` `sequence_values` traverses it:
integer keys from 1 upward until the first absent key. The fuel is the
entry count, which bounds the length of any such chain, so it never cuts
the traversal short. -/
def seqValuesGo (t : LuaEntries) : Nat → Nat → List LuaValue
  | 0, _ => []
  | fuel + 1, idx =>
    if tableGet t (.integer idx) = .nil then []
    else tableGet t (.integer idx) :: seqValuesGo t fuel (idx + 1)

def tableSequenceValues (t : LuaEntries) : List LuaValue :=
  seqValuesGo t (entriesLength t) 1

/-- Conversion of one sequence element to `u8` as `rlua` does for
`Vec<u8>`: an integer in range passes, anything else is rejected. -/
def luaToByte : LuaValue → Except LuaErr Nat
  | .integer i =>
    if 0 ≤ i ∧ i < 256 then .ok i.toNat
    else .error (.fromLuaConversion "integer" "u8" "out of range")
  | v => .error (.fromLuaConversion v.typeName "u8" "expected integer")

/-- Conversion of a Lua value to `Vec<u8>`: the value must be a table and
each of its sequence values must convert to a byte. -/
def luaToByteVec : LuaValue → Except LuaErr (List Nat)
  | .table t => (tableSequenceValues t).mapM luaToByte
  | v => .error (.fromLuaConversion v.typeName "Vec" "expected table")

/-- Sequence table with entries at integer keys `start`, `start + 1`, ... ;
this is how `rlua` marshals a `Vec` (keys start at 1). -/
def seqEntriesFrom (start : Nat) : List LuaValue → LuaEntries
  | [] => .nil
  | v :: vs => .cons (.integer start) v (seqEntriesFrom (start + 1) vs)

/-- Byte sequence table produced by `Vec<u8>::to_lua`. -/
def byteSeqEntries (bs : List Nat) : LuaEntries :=
  seqEntriesFrom 1 (bs.map (fun b : Nat => LuaValue.integer (b : Int)))

def hexChar (n : Nat) : Char :=
  if n < 10 then Char.ofNat (48 + n) else Char.ofNat (87 + n)

def byteHex (b : Nat) : String :=
  String.mk [hexChar (b / 16 % 16), hexChar (b % 16)]

/-- Canonical lowercase hex rendering of an ObjectId, as `ObjectId::to_string`. -/
def oidHexString (bs : List Nat) : String :=
  String.join (bs.map byteHex)

/-- Marshaling of `LuaObjectIdRepr::to_lua`: a fresh table with the three
fields set in source order. -/
def luaObjectIdToLua (bs : List Nat) : LuaValue :=
  .table
    (tableSet
      (tableSet (tableSet .nil (.str "__type") (.str "ObjectId"))
        (.str "__value") (.table (byteSeqEntries bs)))
      (.str "string_repr") (.str (oidHexString bs)))

/-- Reverse marshaling of `LuaObjectIdRepr::from_lua`: the value must be a
table whose `__type` field reads back as the string "ObjectId" and whose
`__value` field converts to a `Vec<u8>` of exactly 12 bytes; each failure
is the distinct `FromLuaConversionError` the source constructs. -/
def luaObjectIdFromLua : LuaValue → Except LuaErr (List Nat)
  | .table t =>
    match coerceToString (tableGet t (.str "__type")) with
    | .error e => .error e
    | .ok s =>
      if s = "ObjectId" then
        match luaToByteVec (tableGet t (.str "__value")) with
        | .error e => .error e
        | .ok bs =>
          if bs.length = 12 then .ok bs
          else .error (.fromLuaConversion "table" "ObjectId" "Invalid ObjectId")
      else .error (.fromLuaConversion "table" "ObjectId" "Not an ObjectId")
  | v => .error (.fromLuaConversion v.typeName "ObjectId" "Invalid ObjectId")

mutual
/-- Marshaling of `LuaBsonRepr::to_lua` (src/lua_engine/mod.rs lines 20 to
47), case for case: strings, booleans and code become native values, both
integer widths become the single Lua integer type, binary data and arrays
become sequence tables, timestamps become milliseconds, ObjectId becomes
the tagged table, documents become tables keyed by their field names (the
source collects them through a `HashMap`, whose iteration order the host
leaves unspecified; the model keeps the document order), and the
display-only variants are formatted to strings. The catch-all arm of the
source maps the remaining variants, among them `Null`, to `nil`. -/
def LuaBsonRepr.to_lua : Bson → LuaValue
  | .string s => .str s
  | .boolean b => .boolean b
  | .javaScriptCode c => .str c
  | .int32 i => .integer i
  | .int64 i => .integer i
  | .binary bytes => .table (byteSeqEntries bytes)
  | .dateTime millis => .integer millis
  | .objectId bs => luaObjectIdToLua bs
  | .symbol s => .str s
  | .document d => .table (fieldsToLua d)
  | .array a => .table (seqEntriesFrom 1 (elemsToLua a))
  | .regularExpression dbg => .str dbg
  | .double bits => .number bits
  | .decimal128 dbg => .str dbg
  | .timestamp dbg => .str dbg
  | .maxKey => .str "MaxKey"
  | .minKey => .str "MinKey"
  | .null => .nil

def fieldsToLua : BsonFields → LuaEntries
  | .nil => .nil
  | .cons k v rest => .cons (.str k) (LuaBsonRepr.to_lua v) (fieldsToLua rest)

def elemsToLua : BsonElems → List LuaValue
  | .nil => []
  | .cons v rest => LuaBsonRepr.to_lua v :: elemsToLua rest
end

/-- Document construction from harvested key-value pairs, modelling the
`HashMap` collect followed by `Document::from_iter`: later values for a
duplicate key replace earlier ones; the model keeps first-occurrence
order where the host hash map order is unspecified. -/
def docInsert : BsonFields → String → Bson → BsonFields
  | .nil, k, v => .cons k v .nil
  | .cons k2 v2 rest, k, v =>
    if k2 = k then .cons k2 v rest else .cons k2 v2 (docInsert rest k v)

def collectDoc (pairs : List (String × Bson)) : BsonFields :=
  pairs.foldl (fun d kv => docInsert d kv.1 kv.2) .nil

mutual
/-- Reverse marshaling of `LuaBsonRepr::from_lua` (src/lua_engine/mod.rs
lines 49 to 80): a table whose `__type` field reads back as "ObjectId" is
dispatched to the ObjectId path; otherwise strings, booleans, integers,
numbers and nil map to their Bson counterparts (integers always to
`Int64`), and a table is harvested pairwise into a document with keys
coerced to strings. -/
def LuaBsonRepr.from_lua : LuaValue → Except LuaErr Bson
  | .table t =>
    match coerceToString (tableGet t (.str "__type")) with
    | .ok s =>
      if s = "ObjectId" then
        match luaObjectIdFromLua (.table t) with
        | .error e => .error e
        | .ok bs => .ok (.objectId bs)
      else
        match pairsFromLua t with
        | .error e => .error e
        | .ok pairs => .ok (.document (collectDoc pairs))
    | .error _ =>
      match pairsFromLua t with
      | .error e => .error e
      | .ok pairs => .ok (.document (collectDoc pairs))
  | .str s => .ok (.string s)
  | .boolean b => .ok (.boolean b)
  | .integer i => .ok (.int64 i)
  | .number bits => .ok (.double bits)
  | .nil => .ok .null

def pairsFromLua : LuaEntries → Except LuaErr (List (String × Bson))
  | .nil => .ok []
  | .cons k v rest =>
    match coerceToString k with
    | .error e => .error e
    | .ok ks =>
      match LuaBsonRepr.from_lua v with
      | .error e => .error e
      | .ok b =>
        match pairsFromLua rest with
        | .error e => .error e
        | .ok ps => .ok ((ks, b) :: ps)
end

/-- Table bound to the global `doc` by `LuaEngine::load_document`: a fresh
table populated by one `set` per document field, in document order. -/
def loadFields (acc : LuaEntries) : BsonFields → LuaEntries
  | .nil => acc
  | .cons k v rest => loadFields (tableSet acc (.str k) (LuaBsonRepr.to_lua v)) rest

def load_document (d : BsonFields) : LuaValue :=
  .table (loadFields .nil d)

def Bson.as_document : Bson → Option BsonFields
  | .document d => some d
  | _ => none

/-- Harvest of `LuaEngine::get_document`: the global `doc` is read back
through `LuaBsonRepr::from_lua` and then `as_document().unwrap()` is
taken; the inner `none` models the panic of `unwrap` on a non-document. -/
def get_document (docGlobal : LuaValue) : Except LuaErr (Option BsonFields) :=
  match LuaBsonRepr.from_lua docGlobal with
  | .error e => .error e
  | .ok b => .ok b.as_document

/-- Pipeline of `apply_script` with the empty script: `load_document`,
then `load_script ""` - the empty chunk executes and touches nothing, in
particular the global `doc` is unchanged - then `get_document`. -/
def run_empty_script (d : BsonFields) : Except LuaErr (Option BsonFields) :=
  get_document (load_document d)

def BsonFields.toList : BsonFields → List (String × Bson)
  | .nil => []
  | .cons k v rest => (k, v) :: BsonFields.toList rest

def BsonFields.keys (d : BsonFields) : List String :=
  d.toList.map Prod.fst

def BsonFields.ofList : List (String × Bson) → BsonFields
  | [] => .nil
  | (k, v) :: rest => .cons k v (BsonFields.ofList rest)

def BsonFields.append : BsonFields → BsonFields → BsonFields
  | .nil, e => e
  | .cons k v rest, e => .cons k v (BsonFields.append rest e)

/-- Variants of the round-trip contract that the bridge preserves exactly:
the scalar variants string, boolean, 64 bit integer and 64 bit float, the
12 byte identifier, and documents of such values whose keys are distinct
and avoid the reserved tag key `__type` (a string field literally equal
to the identifier discriminator would be misread on harvest). -/
inductive Preserved : Bson → Prop where
  | string (s : String) : Preserved (.string s)
  | boolean (b : Bool) : Preserved (.boolean b)
  | int64 (i : Int) : Preserved (.int64 i)
  | double (bits : Nat) : Preserved (.double bits)
  | objectId (bs : List Nat) (h12 : bs.length = 12) (hb : ∀ b ∈ bs, b < 256) :
      Preserved (.objectId bs)
  | document (d : BsonFields) (hnodup : d.keys.Nodup) (htag : "__type" ∉ d.keys)
      (hvals : ∀ kv ∈ d.toList, Preserved kv.2) : Preserved (.document d)

/-! ## Round trip of the index store (claim C2) -/

theorem varintEncodeAux_round (fuel : Nat) :
    ∀ (n : Nat) (rest : List Nat), n < 2 ^ (7 * fuel) →
      varintDecode (varintEncodeAux fuel n ++ rest) = some (n, rest) := by
  induction fuel with
  | zero =>
    intro n rest h
    have hn : n = 0 := by omega
    subst hn
    rfl
  | succ f ih =>
    intro n rest h
    by_cases h128 : n < 128
    · simp [varintEncodeAux, h128, varintDecode]
    · have hb : ¬ (n % 128 + 128 < 128) := by omega
      have hdiv : n / 128 < 2 ^ (7 * f) := by
        have h2 : 2 ^ (7 * (f + 1)) = 2 ^ (7 * f) * 128 := by
          rw [Nat.mul_succ, pow_add]
          norm_num
        rw [Nat.div_lt_iff_lt_mul (by norm_num)]
        omega
      simp only [varintEncodeAux, h128, if_false, List.cons_append, varintDecode, hb,
        ih (n / 128) rest hdiv]
      have heq : n / 128 * 128 + (n % 128 + 128 - 128) = n := by omega
      rw [heq]

theorem varintDecode_encode (n : Nat) (h : n < 2 ^ 64) (rest : List Nat) :
    varintDecode (varintEncode n ++ rest) = some (n, rest) :=
  varintEncodeAux_round 10 n rest (lt_trans h (by norm_num))

/-- Justification that the 10 byte fuel of the encoder is never the reason
a value is cut short, and that encoder output never exceeds the 10 byte
varint cap of the postcard decoder. -/
theorem varintEncode_length_le : ∀ (fuel n : Nat), n < 2 ^ (7 * fuel) →
    (varintEncodeAux fuel n).length ≤ max fuel 1 := by
  intro fuel
  induction fuel with
  | zero =>
    intro n h
    have hn : n = 0 := by omega
    subst hn
    simp [varintEncodeAux]
  | succ f ih =>
    intro n h
    by_cases h128 : n < 128
    · simp [varintEncodeAux, h128]
    · have h2 : 2 ^ (7 * (f + 1)) = 2 ^ (7 * f) * 128 := by
        rw [Nat.mul_succ, pow_add]
        norm_num
      have hdiv : n / 128 < 2 ^ (7 * f) := by
        rw [Nat.div_lt_iff_lt_mul (by norm_num)]
        omega
      have hf : 1 ≤ f := by
        by_contra hc
        have hf0 : f = 0 := by omega
        subst hf0
        simp at h2
        omega
      have := ih (n / 128) hdiv
      simp only [varintEncodeAux, h128, if_false, List.length_cons]
      omega

theorem decodeRecords_encode :
    ∀ (xs : List DocOffset) (rest : List Nat),
      (∀ r ∈ xs, r.offset < 2 ^ 64 ∧ r.size < 2 ^ 64) →
      decodeRecords xs.length (xs.flatMap encodeRecord ++ rest) = some (xs, rest) := by
  intro xs
  induction xs with
  | nil => intro rest _; rfl
  | cons r xs ih =>
    intro rest hb
    have hr := hb r (by simp)
    have hxs : ∀ q ∈ xs, q.offset < 2 ^ 64 ∧ q.size < 2 ^ 64 := by
      intro q hq; exact hb q (by simp [hq])
    simp only [List.flatMap_cons, encodeRecord, List.append_assoc, List.length_cons]
    simp only [decodeRecords, varintDecode_encode r.offset hr.1, varintDecode_encode r.size hr.2,
      ih rest hxs]

theorem postcardDecode_encode (xs : List DocOffset) (hlen : xs.length < 2 ^ 64)
    (hb : ∀ r ∈ xs, r.offset < 2 ^ 64 ∧ r.size < 2 ^ 64) :
    postcardDecodeIndex (postcardEncodeIndex xs) = some xs := by
  have h2 : varintDecode (varintEncode xs.length ++ xs.flatMap encodeRecord)
      = some (xs.length, xs.flatMap encodeRecord) :=
    varintDecode_encode xs.length hlen (xs.flatMap encodeRecord)
  have h3 : decodeRecords xs.length (xs.flatMap encodeRecord) = some (xs, []) := by
    have h4 := decodeRecords_encode xs [] hb
    simpa using h4
  simp [postcardDecodeIndex, postcardEncodeIndex, h2, h3]

theorem cobsEncodeGo_ne_nil : ∀ (data block : List Nat), cobsEncodeGo block data ≠ [] := by
  intro data
  induction data with
  | nil => intro block; simp [cobsEncodeGo]
  | cons b rest ih =>
    intro block
    by_cases hb : b = 0
    · simp [cobsEncodeGo, hb]
    · by_cases hlt : block.length + 1 < 254
      · simpa [cobsEncodeGo, hb, hlt] using ih (block ++ [b])
      · simp [cobsEncodeGo, hb, hlt]

theorem cobsDecodeGo_encodeGo :
    ∀ (data block : List Nat) (fuel : Nat),
      block.length ≤ 253 → (cobsEncodeGo block data).length ≤ fuel →
      cobsDecodeGo fuel (cobsEncodeGo block data) = some (block ++ data) := by
  intro data
  induction data with
  | nil =>
    intro block fuel hle hfuel
    have heq : cobsEncodeGo block [] = (block.length + 1) :: block := rfl
    rw [heq] at hfuel ⊢
    simp only [List.length_cons] at hfuel
    obtain ⟨f, rfl⟩ : ∃ f, fuel = f + 1 := ⟨fuel - 1, by omega⟩
    simp only [cobsDecodeGo]
    rw [if_neg (by omega)]
    have hsub : block.length + 1 - 1 = block.length := by omega
    rw [hsub, if_neg (by simp), if_pos (show block.drop block.length = [] by simp),
      List.take_length]
    simp
  | cons b rest ih =>
    intro block fuel hle hfuel
    have hne := cobsEncodeGo_ne_nil rest []
    have hEpos : 1 ≤ (cobsEncodeGo [] rest).length := by
      cases h : cobsEncodeGo [] rest with
      | nil => exact absurd h hne
      | cons r rest2 => simp
    by_cases hb : b = 0
    · subst hb
      have heq : cobsEncodeGo block (0 :: rest)
          = ((block.length + 1) :: block) ++ cobsEncodeGo [] rest := by
        simp [cobsEncodeGo]
      rw [heq] at hfuel ⊢
      simp only [List.length_append, List.length_cons] at hfuel
      obtain ⟨f, rfl⟩ : ∃ f, fuel = f + 1 := ⟨fuel - 1, by omega⟩
      rw [List.cons_append]
      simp only [cobsDecodeGo]
      rw [if_neg (by omega)]
      have hsub : block.length + 1 - 1 = block.length := by omega
      rw [hsub, if_neg (by simp), List.drop_left, List.take_left,
        if_neg hne, ih [] f (by simp) (by omega)]
      have hlt255 : block.length + 1 < 255 := by omega
      simp [hlt255]
    · by_cases hlt : block.length + 1 < 254
      · have heq : cobsEncodeGo block (b :: rest) = cobsEncodeGo (block ++ [b]) rest := by
          simp [cobsEncodeGo, hb, hlt]
        rw [heq] at hfuel ⊢
        rw [ih (block ++ [b]) fuel (by simp; omega) hfuel]
        simp
      · have heq : cobsEncodeGo block (b :: rest)
            = 255 :: ((block ++ [b]) ++ cobsEncodeGo [] rest) := by
          simp [cobsEncodeGo, hb, hlt]
        rw [heq] at hfuel ⊢
        simp only [List.length_cons, List.length_append] at hfuel
        obtain ⟨f, rfl⟩ : ∃ f, fuel = f + 1 := ⟨fuel - 1, by omega⟩
        simp only [cobsDecodeGo]
        rw [if_neg (by omega)]
        have h254 : (255 : Nat) - 1 = (block ++ [b]).length := by simp; omega
        rw [h254, if_neg (by simp), List.drop_left, List.take_left,
          if_neg hne, ih [] f (by simp) (by omega)]
        simp

theorem cobsDecode_encode (data : List Nat) : cobsDecode (cobsEncode data) = some data := by
  have h := cobsDecodeGo_encodeGo data [] (cobsEncodeGo [] data).length (by simp) (by omega)
  simpa [cobsDecode, cobsEncode] using h

/-- C2: for every record sequence, including the empty one, loading the
bytes produced by saving it - COBS/postcard encode then compress on the
way out, decompress then COBS/postcard decode on the way back - yields
exactly the original sequence, element for element and in order. The
compression collaborator is any pair with decompress inverting compress,
as the spec requires of the external collaborator; record fields are
`usize` values, hence below 2 ^ 64. -/
theorem c2_index_store_round_trip
    (compress : List Nat → List Nat) (decompress : List Nat → Option (List Nat))
    (hinv : ∀ bs, decompress (compress bs) = some bs)
    (xs : List DocOffset) (hlen : xs.length < 2 ^ 64)
    (hbounds : ∀ r ∈ xs, r.offset < 2 ^ 64 ∧ r.size < 2 ^ 64) :
    load_index_data decompress (save_index compress xs) = some xs := by
  have h1 : cobsDecode (cobsEncode (postcardEncodeIndex xs)) = some (postcardEncodeIndex xs) :=
    cobsDecode_encode (postcardEncodeIndex xs)
  simp [load_index_data, save_index, hinv, from_bytes_cobs_offsets, h1,
    postcardDecode_encode xs hlen hbounds]

/-- Witness for C2 at the identity compression pair and a concrete two
record index. -/
theorem c2_index_store_round_trip_witness :
    load_index_data Option.some (save_index (fun bs => bs) [⟨0, 4⟩, ⟨4, 300⟩])
      = some [⟨0, 4⟩, ⟨4, 300⟩] :=
  c2_index_store_round_trip (fun bs => bs) Option.some (fun _ => rfl)
    [⟨0, 4⟩, ⟨4, 300⟩] (by norm_num) (by norm_num)

/-! ## Behaviour of the boundary scanner (claims C3, C4, C7) -/

theorem leBytes4_length (n : Nat) : (leBytes4 n).length = 4 := rfl

theorem leU32_leBytes4 (n : Nat) (h : n < 2 ^ 32) (rest : List Nat) :
    leU32 (leBytes4 n ++ rest) = n := by
  simp only [leBytes4, List.cons_append, List.nil_append, leU32, List.getD_cons_zero,
    List.getD_cons_succ]
  omega

/-- One iteration of the scanner loop at the start of a (claimed)
record: the prefix declares size `s`, a record is pushed for position
`pos`, and the loop continues at `pos + s`. -/
theorem indexFileLoop_step (data : List Nat) (f pos : Nat) (buf : List Nat) (count : Nat)
    (acc : List DocOffset) (s : Nat) (tail : List Nat)
    (hdrop : data.drop pos = leBytes4 s ++ tail) (h4 : 4 ≤ s) (h31 : s < 2 ^ 31) :
    indexFileLoop data (f + 1) pos buf count acc
      = indexFileLoop data f (pos + s) (leBytes4 s ++ buf.drop 4) (count + 1)
          (⟨pos, s⟩ :: acc) := by
  have hchunk : (data.drop pos).take 4 = leBytes4 s := by
    rw [hdrop, show (4 : Nat) = (leBytes4 s).length from rfl, List.take_left]
  have hv : leU32 (leBytes4 s ++ buf.drop 4) = s :=
    leU32_leBytes4 s (by omega) (buf.drop 4)
  simp only [indexFileLoop, hchunk, leBytes4_length]
  rw [if_neg (by omega), hv, if_neg (by omega), if_neg (by omega)]
  have htgt : (((pos + 4 : Nat) : Int) + ((s : Int) - 4)).toNat = pos + s := by omega
  have hoff : pos + 4 - 4 = pos := by omega
  rw [htgt, hoff]

/-- Exit of the scanner loop: a read of zero bytes breaks the loop and
the stream is rewound to position 0. -/
theorem indexFileLoop_done (data : List Nat) (f pos : Nat) (buf : List Nat) (count : Nat)
    (acc : List DocOffset) (hdrop : data.drop pos = []) :
    indexFileLoop data (f + 1) pos buf count acc = .ok acc.reverse count 0 := by
  simp [indexFileLoop, hdrop]

theorem indexFileLoop_wf :
    ∀ (records : List (List Nat)) (data : List Nat) (pos : Nat) (buf : List Nat)
      (count : Nat) (acc : List DocOffset) (fuel : Nat),
      data.drop pos = records.flatten →
      (∀ r ∈ records, WFRecord r) →
      records.length < fuel →
      indexFileLoop data fuel pos buf count acc =
        .ok (acc.reverse ++ expectedIndex records pos) (count + records.length) 0 := by
  intro records
  induction records with
  | nil =>
    intro data pos buf count acc fuel hdrop _ hfuel
    obtain ⟨f, rfl⟩ : ∃ f, fuel = f + 1 := ⟨fuel - 1, by omega⟩
    rw [indexFileLoop_done data f pos buf count acc (by simpa using hdrop)]
    simp [expectedIndex]
  | cons r rs ih =>
    intro data pos buf count acc fuel hdrop hwf hfuel
    obtain ⟨f, rfl⟩ : ∃ f, fuel = f + 1 := ⟨fuel - 1, by simp at hfuel; omega⟩
    obtain ⟨hr4, hr31, hrtake⟩ := hwf r (by simp)
    have hsplit : data.drop pos = leBytes4 r.length ++ (r.drop 4 ++ rs.flatten) := by
      rw [hdrop, List.flatten_cons, ← List.append_assoc, ← hrtake, List.take_append_drop]
    rw [indexFileLoop_step data f pos buf count acc r.length (r.drop 4 ++ rs.flatten)
      hsplit hr4 hr31]
    have hdrop2 : data.drop (pos + r.length) = rs.flatten := by
      have h1 : (data.drop pos).drop r.length = rs.flatten := by
        rw [hdrop, List.flatten_cons, List.drop_left]
      rw [List.drop_drop] at h1
      exact h1
    rw [ih data (pos + r.length) (leBytes4 r.length ++ buf.drop 4) (count + 1)
      (⟨pos, r.length⟩ :: acc) f hdrop2 (fun q hq => hwf q (by simp [hq]))
      (by simp at hfuel; omega)]
    congr 1
    · simp [expectedIndex, List.reverse_cons, List.append_assoc]
    · simp
      omega

theorem expectedIndex_mem_le :
    ∀ (rs : List (List Nat)) (pos : Nat) (rec : DocOffset),
      rec ∈ expectedIndex rs pos → pos ≤ rec.offset := by
  intro rs
  induction rs with
  | nil => intro pos rec h; simp [expectedIndex] at h
  | cons r rs ih =>
    intro pos rec h
    simp only [expectedIndex, List.mem_cons] at h
    rcases h with h | h
    · subst h; simp
    · have := ih (pos + r.length) rec h
      omega

theorem expectedIndex_pairwise :
    ∀ (rs : List (List Nat)) (pos : Nat), (∀ r ∈ rs, 1 ≤ r.length) →
      List.Pairwise (fun a b => a.offset < b.offset) (expectedIndex rs pos) := by
  intro rs
  induction rs with
  | nil => intro pos _; simp [expectedIndex]
  | cons r rs ih =>
    intro pos hlen
    simp only [expectedIndex, List.pairwise_cons]
    constructor
    · intro rec hrec
      have h1 := expectedIndex_mem_le rs (pos + r.length) rec hrec
      have h2 := hlen r (by simp)
      show pos < rec.offset
      omega
    · exact ih (pos + r.length) (fun q hq => hlen q (by simp [hq]))

theorem expectedIndex_reconstruct :
    ∀ (rs : List (List Nat)) (pos : Nat) (data : List Nat),
      data.drop pos = rs.flatten →
      List.Forall₂ (fun rec r => rec.size = r.length ∧ (data.drop rec.offset).take rec.size = r)
        (expectedIndex rs pos) rs := by
  intro rs
  induction rs with
  | nil => intro pos data _; simp [expectedIndex]
  | cons r rs ih =>
    intro pos data hdrop
    rw [List.flatten_cons] at hdrop
    simp only [expectedIndex, List.forall₂_cons]
    refine ⟨⟨trivial, ?_⟩, ?_⟩
    · show (data.drop pos).take r.length = r
      rw [hdrop, List.take_left]
    · apply ih
      have h1 : (data.drop pos).drop r.length = rs.flatten := by
        rw [hdrop, List.drop_left]
      rw [List.drop_drop] at h1
      exact h1

theorem expectedIndex_length :
    ∀ (rs : List (List Nat)) (pos : Nat), (expectedIndex rs pos).length = rs.length := by
  intro rs
  induction rs with
  | nil => intro pos; rfl
  | cons r rs ih => intro pos; simp [expectedIndex, ih]

/-- C4: on a stream of N concatenated well-formed length-prefixed records
the scan returns exactly N records, their offsets are strictly
increasing, each (offset, size) pair reconstructs the byte range of its
record exactly, and the stream is rewound to position 0 on success. -/
theorem c4_scan_well_formed_stream (records : List (List Nat)) (fuel : Nat)
    (hwf : ∀ r ∈ records, WFRecord r) (hfuel : records.length < fuel) :
    index_file fuel records.flatten = .ok (expectedIndex records 0) records.length 0 ∧
    (expectedIndex records 0).length = records.length ∧
    List.Pairwise (fun a b => a.offset < b.offset) (expectedIndex records 0) ∧
    List.Forall₂ (fun rec r => rec.size = r.length ∧
        ((records.flatten).drop rec.offset).take rec.size = r)
      (expectedIndex records 0) records := by
  refine ⟨?_, expectedIndex_length records 0, ?_, ?_⟩
  · have h := indexFileLoop_wf records records.flatten 0 [0, 0, 0, 0] 0 [] fuel (by simp)
      hwf hfuel
    simpa [index_file] using h
  · exact expectedIndex_pairwise records 0 (fun r hr => by have h4 := (hwf r hr).1; omega)
  · exact expectedIndex_reconstruct records 0 records.flatten (by simp)

/-- Witness for C4 on a concrete two record stream (sizes 4 and 5). -/
theorem c4_scan_well_formed_stream_witness :
    index_file 3 [4, 0, 0, 0, 5, 0, 0, 0, 9]
        = .ok (expectedIndex [[4, 0, 0, 0], [5, 0, 0, 0, 9]] 0) 2 0 ∧
      (expectedIndex [[4, 0, 0, 0], [5, 0, 0, 0, 9]] 0).length = 2 ∧
      List.Pairwise (fun a b => a.offset < b.offset)
        (expectedIndex [[4, 0, 0, 0], [5, 0, 0, 0, 9]] 0) ∧
      List.Forall₂ (fun rec r => rec.size = r.length ∧
          (([4, 0, 0, 0, 5, 0, 0, 0, 9] : List Nat).drop rec.offset).take rec.size = r)
        (expectedIndex [[4, 0, 0, 0], [5, 0, 0, 0, 9]] 0) [[4, 0, 0, 0], [5, 0, 0, 0, 9]] :=
  c4_scan_well_formed_stream [[4, 0, 0, 0], [5, 0, 0, 0, 9]] 3 (by decide) (by decide)

/-- C7 counterexample: a 4 byte stream whose single record declares size
8, so the seek lands past end of file. The claim says the scan must fail
with a corrupt-input error at the next read attempt; instead the next
read returns zero bytes, the loop breaks, and the scan returns
successfully with the over-reaching record included in the index. -/
theorem c7_scan_past_eof_counterexample :
    index_file 2 [8, 0, 0, 0] = .ok [⟨0, 8⟩] 1 0 ∧ ([8, 0, 0, 0] : List Nat).length < 8 := by
  constructor
  · decide
  · decide

/-- Loop behaviour on a stream whose last record overshoots: after any
number of leading well-formed records, the final 4 byte prefix declares
size `v` although only `4 + |tail|` bytes remain (`tail` is the partial
payload that follows the prefix). The loop indexes the leading records,
pushes the over-reaching record, seeks past end of file, reads zero
bytes, and exits successfully with the stream rewound. -/
theorem indexFileLoop_overshoot :
    ∀ (records : List (List Nat)) (data : List Nat) (pos : Nat) (buf : List Nat)
      (count : Nat) (acc : List DocOffset) (fuel v : Nat) (tail : List Nat),
      data.drop pos = records.flatten ++ (leBytes4 v ++ tail) →
      (∀ r ∈ records, WFRecord r) →
      4 ≤ v → v < 2 ^ 31 → 4 + tail.length < v →
      records.length + 2 ≤ fuel →
      indexFileLoop data fuel pos buf count acc
        = .ok (acc.reverse ++ (expectedIndex records pos
              ++ [⟨pos + (records.flatten).length, v⟩]))
            (count + records.length + 1) 0 := by
  intro records
  induction records with
  | nil =>
    intro data pos buf count acc fuel v tail hdrop hwf h4 h31 hover hfuel
    obtain ⟨f, rfl⟩ : ∃ f, fuel = f + 2 := ⟨fuel - 2, by omega⟩
    rw [show f + 2 = (f + 1) + 1 from rfl,
      indexFileLoop_step data (f + 1) pos buf count acc v tail (by simpa using hdrop) h4 h31]
    have hdone : data.drop (pos + v) = [] := by
      have h1 : (data.drop pos).drop v = [] := by
        rw [hdrop]
        simp only [List.flatten_nil, List.nil_append]
        refine List.drop_eq_nil_of_le ?_
        simp only [List.length_append, leBytes4_length]
        omega
      rw [List.drop_drop] at h1
      exact h1
    rw [indexFileLoop_done data f (pos + v) _ _ _ hdone]
    simp [expectedIndex, List.reverse_cons]
  | cons r rs ih =>
    intro data pos buf count acc fuel v tail hdrop hwf h4 h31 hover hfuel
    obtain ⟨f, rfl⟩ : ∃ f, fuel = f + 1 := ⟨fuel - 1, by omega⟩
    obtain ⟨hr4, hr31, hrtake⟩ := hwf r (by simp)
    have hsplit : data.drop pos
        = leBytes4 r.length ++ (r.drop 4 ++ (rs.flatten ++ (leBytes4 v ++ tail))) := by
      calc data.drop pos
          = (r ++ rs.flatten) ++ (leBytes4 v ++ tail) := by rw [hdrop, List.flatten_cons]
        _ = r ++ (rs.flatten ++ (leBytes4 v ++ tail)) := by rw [List.append_assoc]
        _ = (r.take 4 ++ r.drop 4) ++ (rs.flatten ++ (leBytes4 v ++ tail)) := by
            rw [List.take_append_drop]
        _ = leBytes4 r.length ++ (r.drop 4 ++ (rs.flatten ++ (leBytes4 v ++ tail))) := by
            rw [hrtake, List.append_assoc]
    rw [indexFileLoop_step data f pos buf count acc r.length _ hsplit hr4 hr31]
    have hdrop2 : data.drop (pos + r.length) = rs.flatten ++ (leBytes4 v ++ tail) := by
      have h1 : (data.drop pos).drop r.length = rs.flatten ++ (leBytes4 v ++ tail) := by
        rw [hdrop, List.flatten_cons, List.append_assoc, List.drop_left]
      rw [List.drop_drop] at h1
      exact h1
    rw [ih data (pos + r.length) _ (count + 1) (⟨pos, r.length⟩ :: acc) f v tail hdrop2
      (fun q hq => hwf q (by simp [hq])) h4 h31 hover (by simp at hfuel; omega)]
    congr 1
    · simp [expectedIndex, List.reverse_cons, List.append_assoc, List.flatten_cons,
        Nat.add_assoc]
    · simp
      omega

/-- C7 amended: for every input stream consisting of well-formed records
followed by a final record whose declared size seeks past end of file -
its 4 byte prefix declares size `v` although only `4 + |tail|` bytes
remain - the boundary scan does not fail: it returns successfully with
the over-reaching record silently included after the leading records,
and the stream rewound to position 0. -/
theorem c7_scan_past_eof_amended (records : List (List Nat)) (v : Nat) (tail : List Nat)
    (fuel : Nat) (hwf : ∀ r ∈ records, WFRecord r) (h4 : 4 ≤ v) (h31 : v < 2 ^ 31)
    (hover : 4 + tail.length < v) (hfuel : records.length + 2 ≤ fuel) :
    index_file fuel (records.flatten ++ (leBytes4 v ++ tail))
      = .ok (expectedIndex records 0 ++ [⟨(records.flatten).length, v⟩])
          (records.length + 1) 0 := by
  have h := indexFileLoop_overshoot records (records.flatten ++ (leBytes4 v ++ tail)) 0
    [0, 0, 0, 0] 0 [] fuel v tail (by simp) hwf h4 h31 hover hfuel
  simpa [index_file] using h

/-- Witness for the amended C7: one well-formed record of size 4, then a
prefix declaring size 9 with only 2 payload bytes left in the file. -/
theorem c7_scan_past_eof_witness :
    index_file 3 [4, 0, 0, 0, 9, 0, 0, 0, 1, 2] = .ok [⟨0, 4⟩, ⟨4, 9⟩] 2 0 :=
  c7_scan_past_eof_amended [[4, 0, 0, 0]] 9 [1, 2] 3 (by decide) (by omega) (by norm_num)
    (by decide) (by decide)

/-- On the stream [3, 0, 0, 0] the scanner reads size 3, seeks one byte
backwards to position 3, refills only the first buffer byte from the
single remaining byte, parses the stale-padded buffer as size 0, seeks
back to position 0, and is back in its starting state: one loop iteration
from position 0 for any buffer contents. -/
theorem indexFileLoop_size3_step_a (f : Nat) (buf : List Nat) (count : Nat)
    (acc : List DocOffset) :
    indexFileLoop [3, 0, 0, 0] (f + 1) 0 buf count acc
      = indexFileLoop [3, 0, 0, 0] f 3 (3 :: 0 :: 0 :: 0 :: buf.drop 4) (count + 1)
          (⟨0, 3⟩ :: acc) := by
  have hv : leU32 (3 :: 0 :: 0 :: 0 :: buf.drop 4) = 3 := by simp [leU32]
  simp only [indexFileLoop, List.drop_zero, List.take_succ_cons, List.take_nil,
    List.cons_append, List.nil_append]
  norm_num [hv]
  rfl

/-- Second half of the cycle: the iteration from position 3 returns the
scanner to position 0. -/
theorem indexFileLoop_size3_step_b (f : Nat) (rest : List Nat) (count : Nat)
    (acc : List DocOffset) :
    indexFileLoop [3, 0, 0, 0] (f + 1) 3 (3 :: 0 :: 0 :: 0 :: rest) count acc
      = indexFileLoop [3, 0, 0, 0] f 0 (0 :: 0 :: 0 :: 0 :: rest) (count + 1)
          (⟨0, 0⟩ :: acc) := by
  have hv : leU32 (0 :: 0 :: 0 :: 0 :: rest) = 0 := by simp [leU32]
  simp only [indexFileLoop]
  norm_num [hv]

theorem indexFileLoop_size3_diverges :
    ∀ (fuel : Nat) (buf : List Nat) (count : Nat) (acc : List DocOffset),
      indexFileLoop [3, 0, 0, 0] fuel 0 buf count acc = .outOfFuel := by
  intro fuel
  induction fuel using Nat.strong_induction_on with
  | _ fuel ih =>
    match fuel, ih with
    | 0, _ => intro buf count acc; rfl
    | 1, _ =>
      intro buf count acc
      rw [indexFileLoop_size3_step_a 0]
      rfl
    | (f + 2), ih =>
      intro buf count acc
      rw [indexFileLoop_size3_step_a (f + 1), indexFileLoop_size3_step_b f]
      exact ih f (by omega) _ _ _

/-- C3: the claim says a declared size below 4 (for example 3) makes the
scan fail with a malformed-input error without looping forever. The code
has no such check: on the stream [3, 0, 0, 0] the scan never returns for
any amount of fuel - the loop cycles between positions 0 and 3 forever,
pushing bogus records with sizes 3 and 0 - so the code diverges where the
spec requires a malformed-input failure. -/
theorem c3_scan_size3_diverges : ∀ fuel : Nat, index_file fuel [3, 0, 0, 0] = .outOfFuel :=
  fun fuel => indexFileLoop_size3_diverges fuel [0, 0, 0, 0] 0 []

/-! ## Corrupt index handling in `main` (claim C8) -/

/-- C8 counterexample: a persisted index file whose single byte 0 is not
a valid COBS frame. `load_index_data` fails (with the identity
decompressor, so the failure is the deserialization, not zlib), and the
decision in `main` - index file exists, no `--inspect` - propagates the
failure and aborts instead of falling back to the scan result. -/
theorem c8_corrupt_index_counterexample :
    load_index_data Option.some [0] = none ∧
    acquireIndex true false (load_index_data Option.some [0]) (some [⟨0, 4⟩]) = none ∧
    acquireIndex true false (load_index_data Option.some [0]) (some [⟨0, 4⟩]) ≠ some [⟨0, 4⟩] := by
  refine ⟨rfl, rfl, by decide⟩

/-- C8 amended: when the persisted index fails to decompress or
deserialize, `load_index_data` fails with a distinct error, but `main`
propagates that failure and aborts the run; it does not fall back to a
fresh scan. The scan result is only used when the index file is absent or
`--inspect` is given. -/
theorem c8_corrupt_index_aborts (decompress : List Nat → Option (List Nat))
    (file : List Nat) (scanResult : Option (List DocOffset))
    (hcorrupt : load_index_data decompress file = none) :
    acquireIndex true false (load_index_data decompress file) scanResult = none ∧
    acquireIndex false false (load_index_data decompress file) scanResult = scanResult ∧
    acquireIndex true true (load_index_data decompress file) scanResult = scanResult := by
  rw [hcorrupt]
  exact ⟨rfl, rfl, rfl⟩

/-- Witness for the amended C8 at the concrete corrupt index file. -/
theorem c8_corrupt_index_aborts_witness :
    acquireIndex true false (load_index_data Option.some [0]) (some [⟨0, 4⟩]) = none ∧
    acquireIndex false false (load_index_data Option.some [0]) (some [⟨0, 4⟩]) = some [⟨0, 4⟩] ∧
    acquireIndex true true (load_index_data Option.some [0]) (some [⟨0, 4⟩]) = some [⟨0, 4⟩] :=
  c8_corrupt_index_aborts Option.some [0] (some [⟨0, 4⟩]) rfl

/-! ## Per-file export and the shared counter (claim C9) -/

theorem fsWrite_fresh (files : List ((Nat × Nat) × Nat)) (name : Nat × Nat) (doc : Nat)
    (h : name ∉ files.map Prod.fst) :
    fsWrite files name doc = files ++ [(name, doc)] := by
  simp [fsWrite, h]

/-- The write phase of one batch run without interference: every write
sees the same counter value `k` and, because all existing file names
carry a smaller counter value, each write creates a fresh file. -/
theorem foldl_writes (batches : List (List Nat)) (bIdx : Nat) :
    ∀ (len : Nat) (files : List ((Nat × Nat) × Nat)) (k : Nat),
      (∀ f ∈ files, f.1.1 < k) →
      List.foldl (exportStep batches) ⟨k, files⟩ ((List.range len).map (ExportEvent.wr bIdx))
        = ⟨k, files ++ (List.range len).map
            (fun nth => ((k, nth), (batches.getD bIdx []).getD nth 0))⟩ := by
  intro len
  induction len with
  | zero => intro files k _; simp
  | succ n ih =>
    intro files k hfresh
    rw [List.range_succ, List.map_append, List.foldl_append, ih files k hfresh]
    simp only [List.map_cons, List.map_nil, List.foldl_cons, List.foldl_nil, exportStep]
    have hnotmem : ((k, n) : Nat × Nat) ∉
        (files ++ (List.range n).map
          (fun nth => ((k, nth), (batches.getD bIdx []).getD nth 0))).map Prod.fst := by
      rw [List.map_append]
      intro hmem
      rcases List.mem_append.mp hmem with hmem | hmem
      · rcases List.mem_map.mp hmem with ⟨f, hf, hEq⟩
        have h5 := hfresh f hf
        have h6 : f.1.1 = k := by rw [hEq]
        omega
      · rw [List.map_map] at hmem
        rcases List.mem_map.mp hmem with ⟨nth, hnth, hEq⟩
        have h6 : nth = n := by
          have h7 := congrArg Prod.snd hEq
          simpa using h7
        subst h6
        exact absurd (List.mem_range.mp hnth) (by omega)
    rw [fsWrite_fresh _ _ _ hnotmem]
    simp [List.range_succ, List.append_assoc]

theorem runExport_seq_aux :
    ∀ (rest : List (List Nat)) (batches : List (List Nat)) (k : Nat)
      (files : List ((Nat × Nat) × Nat)),
      batches.drop k = rest →
      (∀ f ∈ files, f.1.1 < k) →
      List.foldl (exportStep batches) ⟨k, files⟩ (seqScheduleAux k rest)
        = ⟨k + rest.length, files ++ canonicalFilesAux k rest⟩ := by
  intro rest
  induction rest with
  | nil => intro batches k files _ _; simp [seqScheduleAux, canonicalFilesAux]
  | cons batch rest2 ih =>
    intro batches k files hdrop hfresh
    have hget : batches.getD k [] = batch := by
      have h1 : batches[k]? = some batch := by
        have h2 : (batches.drop k)[0]? = some batch := by rw [hdrop]; simp
        rwa [List.getElem?_drop, Nat.add_zero] at h2
      simp [List.getD, h1]
    have hdrop2 : batches.drop (k + 1) = rest2 := by
      have h1 : (batches.drop k).drop 1 = rest2 := by rw [hdrop]; rfl
      rwa [List.drop_drop] at h1
    simp only [seqScheduleAux, batchEvents, List.append_assoc, List.foldl_append]
    rw [foldl_writes batches k batch.length files k hfresh]
    simp only [List.foldl_cons, List.foldl_nil, exportStep]
    rw [hget]
    have hfresh2 : ∀ f ∈ files ++ (List.range batch.length).map
        (fun nth => ((k, nth), batch.getD nth 0)), f.1.1 < k + 1 := by
      intro f hf
      rcases List.mem_append.mp hf with hf | hf
      · have := hfresh f hf; omega
      · rcases List.mem_map.mp hf with ⟨nth, _, hEq⟩
        subst hEq
        exact Nat.lt_succ_self k
    rw [ih batches (k + 1) _ hdrop2 hfresh2]
    simp [canonicalFilesAux, List.append_assoc]
    omega

theorem canonicalFilesAux_first_ge :
    ∀ (rest : List (List Nat)) (b : Nat) (f : (Nat × Nat) × Nat),
      f ∈ canonicalFilesAux b rest → b ≤ f.1.1 := by
  intro rest
  induction rest with
  | nil => intro b f h; simp [canonicalFilesAux] at h
  | cons batch rest2 ih =>
    intro b f h
    simp only [canonicalFilesAux, List.mem_append] at h
    rcases h with h | h
    · rcases List.mem_map.mp h with ⟨nth, _, hEq⟩
      subst hEq
      exact Nat.le_refl b
    · have := ih (b + 1) f h
      omega

theorem canonicalFilesAux_nodup :
    ∀ (rest : List (List Nat)) (b : Nat), ((canonicalFilesAux b rest).map Prod.fst).Nodup := by
  intro rest
  induction rest with
  | nil => intro b; simp [canonicalFilesAux]
  | cons batch rest2 ih =>
    intro b
    simp only [canonicalFilesAux, List.map_append, List.map_map]
    rw [List.nodup_append]
    refine ⟨?_, ih (b + 1), ?_⟩
    · apply List.Nodup.map
      · intro x y hxy
        simpa using congrArg Prod.snd hxy
      · exact List.nodup_range _
    · intro name h1 h2
      rcases List.mem_map.mp h1 with ⟨nth, _, hEq⟩
      rcases List.mem_map.mp h2 with ⟨f, hf, hEq2⟩
      have h3 := canonicalFilesAux_first_ge rest2 (b + 1) f hf
      have h4 : name.1 = b := by
        subst hEq
        rfl
      have h5 : b + 1 ≤ name.1 := by
        subst hEq2
        exact h3
      omega

theorem canonicalFilesAux_length :
    ∀ (rest : List (List Nat)) (b : Nat),
      (canonicalFilesAux b rest).length = totalDocs rest := by
  intro rest
  induction rest with
  | nil => intro b; rfl
  | cons batch rest2 ih =>
    intro b
    simp [canonicalFilesAux, totalDocs, ih (b + 1)]

/-- C9 counterexample: two batches of one record each and the valid
interleaving in which both workers read the shared `chunk_ct` counter
before either increments it. Both writes use counter value 0 and produce
the same file name, the second write truncates the first, and only one of
the two output artifacts remains; the claim requires exactly N artifacts
for every worker-completion order. -/
theorem c9_export_duplicate_name_counterexample :
    ValidSchedule [[10], [20]] [.wr 0 0, .wr 1 0, .inc 0, .inc 1] ∧
    totalDocs [[10], [20]] = 2 ∧
    (runExport [[10], [20]] [.wr 0 0, .wr 1 0, .inc 0, .inc 1]).files.length = 1 := by
  refine ⟨⟨?_, ?_⟩, ?_, ?_⟩ <;> decide

/-- C9 amended: per-file export produces exactly one artifact per record,
with pairwise distinct file names and no omissions, under the sequential
schedule in which each batch completes (writes plus counter increment)
before the next batch starts; under overlapping schedules two batches can
observe the same counter value and produce colliding names that overwrite
each other, as the counterexample shows. -/
theorem c9_export_sequential_amended (batches : List (List Nat)) :
    runExport batches (seqSchedule batches) = ⟨batches.length, canonicalFilesAux 0 batches⟩ ∧
    (canonicalFilesAux 0 batches).length = totalDocs batches ∧
    ((canonicalFilesAux 0 batches).map Prod.fst).Nodup := by
  refine ⟨?_, canonicalFilesAux_length batches 0, canonicalFilesAux_nodup batches 0⟩
  have h := runExport_seq_aux batches batches 0 [] (by simp) (by simp)
  simpa [runExport, seqSchedule] using h

/-! ## The Lua bridge: identifiers, documents, panics (claims C1, C5, C6, C10) -/

theorem entriesLength_seqEntriesFrom :
    ∀ (vs : List LuaValue) (s : Nat), entriesLength (seqEntriesFrom s vs) = vs.length := by
  intro vs
  induction vs with
  | nil => intro s; rfl
  | cons v vs ih => intro s; simp [seqEntriesFrom, entriesLength, ih (s + 1)]

theorem tableGet_seqEntriesFrom :
    ∀ (vs : List LuaValue) (s j : Nat), j < vs.length →
      tableGet (seqEntriesFrom s vs) (.integer ((s + j : Nat) : Int)) = vs.getD j .nil := by
  intro vs
  induction vs with
  | nil => intro s j h; simp at h
  | cons v vs ih =>
    intro s j h
    match j with
    | 0 =>
      rw [Nat.add_zero]
      simp [seqEntriesFrom, tableGet]
    | j + 1 =>
      have hne : (LuaValue.integer (s : Int)) ≠ (.integer ((s + (j + 1) : Nat) : Int)) := by
        intro hEq
        have h2 : ((s : Nat) : Int) = ((s + (j + 1) : Nat) : Int) := by injection hEq
        omega
      have h3 := ih (s + 1) j (by simp at h; omega)
      rw [show (s + 1) + j = s + (j + 1) from by omega] at h3
      simp only [seqEntriesFrom, tableGet, if_neg hne]
      simpa using h3

theorem seqValuesGo_seqEntriesFrom :
    ∀ (vs : List LuaValue) (t : LuaEntries) (s : Nat),
      (∀ j, j < vs.length → tableGet t (.integer ((s + j : Nat) : Int)) = vs.getD j .nil) →
      (∀ v ∈ vs, v ≠ .nil) →
      seqValuesGo t vs.length s = vs := by
  intro vs
  induction vs with
  | nil => intro t s _ _; rfl
  | cons v vs ih =>
    intro t s hget hnn
    have h0 : tableGet t (.integer (s : Int)) = v := by
      have h1 := hget 0 (by simp)
      rw [Nat.add_zero] at h1
      simpa using h1
    have hv : v ≠ .nil := hnn v (by simp)
    simp only [List.length_cons, seqValuesGo, h0, if_neg hv]
    congr 1
    apply ih t (s + 1)
    · intro j hj
      have h2 := hget (j + 1) (by simp; omega)
      rw [show s + (j + 1) = (s + 1) + j from by omega] at h2
      simpa using h2
    · intro w hw
      exact hnn w (by simp [hw])

theorem tableSequenceValues_seqEntriesFrom (vs : List LuaValue) (hnn : ∀ v ∈ vs, v ≠ .nil) :
    tableSequenceValues (seqEntriesFrom 1 vs) = vs := by
  rw [tableSequenceValues, entriesLength_seqEntriesFrom]
  exact seqValuesGo_seqEntriesFrom vs (seqEntriesFrom 1 vs) 1
    (fun j hj => tableGet_seqEntriesFrom vs 1 j hj) hnn

theorem mapM_luaToByte :
    ∀ (bs : List Nat), (∀ b ∈ bs, b < 256) →
      (bs.map (fun b : Nat => LuaValue.integer (b : Int))).mapM luaToByte = .ok bs := by
  intro bs
  induction bs with
  | nil => intro _; rfl
  | cons b bs ih =>
    intro hb
    have hlt := hb b (by simp)
    have h1 : luaToByte (.integer b) = .ok b := by
      have h2 : ((b : Nat) : Int) < 256 := by exact_mod_cast hlt
      show (if 0 ≤ (b : Int) ∧ (b : Int) < 256 then (Except.ok (b : Int).toNat : Except LuaErr Nat)
          else .error (.fromLuaConversion "integer" "u8" "out of range")) = .ok b
      rw [if_pos ⟨Int.natCast_nonneg b, h2⟩, Int.toNat_natCast]
    simp only [List.map_cons, List.mapM_cons, h1, ih (fun q hq => hb q (by simp [hq]))]
    rfl

theorem luaToByteVec_byteSeq (bs : List Nat) (hb : ∀ b ∈ bs, b < 256) :
    luaToByteVec (.table (byteSeqEntries bs)) = .ok bs := by
  have h1 : tableSequenceValues (byteSeqEntries bs)
      = bs.map (fun b : Nat => LuaValue.integer (b : Int)) := by
    rw [byteSeqEntries]
    exact tableSequenceValues_seqEntriesFrom _ (by
      intro v hv
      rcases List.mem_map.mp hv with ⟨b, _, hEq⟩
      subst hEq
      simp)
  simp only [luaToByteVec, h1]
  exact mapM_luaToByte bs hb

theorem luaObjectIdFromLua_toLua (bs : List Nat) (h12 : bs.length = 12)
    (hb : ∀ b ∈ bs, b < 256) :
    luaObjectIdFromLua (luaObjectIdToLua bs) = .ok bs := by
  have key : luaObjectIdFromLua (luaObjectIdToLua bs)
      = (match luaToByteVec (.table (byteSeqEntries bs)) with
          | .error e => .error e
          | .ok v =>
            if v.length = 12 then .ok v
            else .error (.fromLuaConversion "table" "ObjectId" "Invalid ObjectId")) := rfl
  rw [key, luaToByteVec_byteSeq bs hb]
  show (if bs.length = 12 then (Except.ok bs : Except LuaErr (List Nat))
      else .error (.fromLuaConversion "table" "ObjectId" "Invalid ObjectId")) = .ok bs
  rw [if_pos h12]

theorem from_lua_to_lua_objectId (bs : List Nat) (h12 : bs.length = 12)
    (hb : ∀ b ∈ bs, b < 256) :
    LuaBsonRepr.from_lua (LuaBsonRepr.to_lua (.objectId bs)) = .ok (.objectId bs) := by
  have key : LuaBsonRepr.from_lua (LuaBsonRepr.to_lua (.objectId bs))
      = (match luaObjectIdFromLua (luaObjectIdToLua bs) with
          | .error e => .error e
          | .ok v => .ok (.objectId v)) := rfl
  rw [key, luaObjectIdFromLua_toLua bs h12 hb]

/-- C5: marshaling a 12 byte identifier into the tagged table
representation and unmarshaling it back yields the identical 12 bytes,
both at the level of `LuaObjectIdRepr` and through the full value bridge.
A script that reads the identifier and stores it back unmodified hands
exactly this representation to the harvest, so its bytes survive intact. -/
theorem c5_object_id_round_trip (bs : List Nat) (h12 : bs.length = 12)
    (hb : ∀ b ∈ bs, b < 256) :
    luaObjectIdFromLua (luaObjectIdToLua bs) = .ok bs ∧
    LuaBsonRepr.from_lua (LuaBsonRepr.to_lua (.objectId bs)) = .ok (.objectId bs) :=
  ⟨luaObjectIdFromLua_toLua bs h12 hb, from_lua_to_lua_objectId bs h12 hb⟩

/-- Witness for C5 at a concrete 12 byte identifier. -/
theorem c5_object_id_round_trip_witness :
    luaObjectIdFromLua (luaObjectIdToLua [0, 1, 2, 3, 4, 5, 6, 7, 8, 9, 10, 11])
        = .ok [0, 1, 2, 3, 4, 5, 6, 7, 8, 9, 10, 11] ∧
    LuaBsonRepr.from_lua (LuaBsonRepr.to_lua (.objectId [0, 1, 2, 3, 4, 5, 6, 7, 8, 9, 10, 11]))
        = .ok (.objectId [0, 1, 2, 3, 4, 5, 6, 7, 8, 9, 10, 11]) :=
  c5_object_id_round_trip [0, 1, 2, 3, 4, 5, 6, 7, 8, 9, 10, 11] (by decide) (by decide)

/-- C6: a table tagged `__type = "ObjectId"` whose `__value` byte
sequence does not have exactly 12 bytes makes reverse marshaling fail
with the distinct invalid-identifier error the source constructs, rather
than producing an identifier. -/
theorem c6_invalid_object_id_length (t : LuaEntries) (v : List Nat)
    (hty : coerceToString (tableGet t (.str "__type")) = .ok "ObjectId")
    (hval : luaToByteVec (tableGet t (.str "__value")) = .ok v)
    (hlen : v.length ≠ 12) :
    LuaBsonRepr.from_lua (.table t)
      = .error (.fromLuaConversion "table" "ObjectId" "Invalid ObjectId") := by
  have h1 : luaObjectIdFromLua (.table t)
      = .error (.fromLuaConversion "table" "ObjectId" "Invalid ObjectId") := by
    simp only [luaObjectIdFromLua, hty, hval, if_true]
    rw [if_neg hlen]
  simp only [LuaBsonRepr.from_lua, hty, if_true]
  rw [h1]

/-- Witness for C6 at a tagged table carrying an 11 byte sequence. -/
theorem c6_invalid_object_id_length_witness :
    LuaBsonRepr.from_lua (.table (.cons (.str "__type") (.str "ObjectId")
        (.cons (.str "__value") (.table (byteSeqEntries [7, 7, 7, 7, 7, 7, 7, 7, 7, 7, 7]))
          .nil)))
      = .error (.fromLuaConversion "table" "ObjectId" "Invalid ObjectId") :=
  c6_invalid_object_id_length
    (.cons (.str "__type") (.str "ObjectId")
      (.cons (.str "__value") (.table (byteSeqEntries [7, 7, 7, 7, 7, 7, 7, 7, 7, 7, 7])) .nil))
    [7, 7, 7, 7, 7, 7, 7, 7, 7, 7, 7] rfl rfl (by decide)

/-- C10: when the global `doc` holds a non-table value after the script
ran - a string, boolean, integer, float or nil - `get_document` reaches
`as_document().unwrap()` on a non-document and panics (the inner `none`)
instead of returning a script-failure error, and it can only return a
harvested document when the global is a table. -/
theorem c10_get_document_panics_on_non_table (v : LuaValue) :
    ((∃ s, v = .str s) ∨ (∃ b, v = .boolean b) ∨ (∃ i, v = .integer i) ∨
        (∃ n, v = .number n) ∨ v = .nil → get_document v = .ok none) ∧
    (∀ d, get_document v = .ok (some d) → ∃ t, v = .table t) := by
  constructor
  · rintro (⟨s, rfl⟩ | ⟨b, rfl⟩ | ⟨i, rfl⟩ | ⟨n, rfl⟩ | rfl) <;> rfl
  · intro d hd
    cases v with
    | table t => exact ⟨t, rfl⟩
    | nil =>
      rw [show get_document .nil = .ok none from rfl] at hd
      exact absurd hd (by simp)
    | str s =>
      rw [show get_document (.str s) = .ok none from rfl] at hd
      exact absurd hd (by simp)
    | boolean b =>
      rw [show get_document (.boolean b) = .ok none from rfl] at hd
      exact absurd hd (by simp)
    | integer i =>
      rw [show get_document (.integer i) = .ok none from rfl] at hd
      exact absurd hd (by simp)
    | number n =>
      rw [show get_document (.number n) = .ok none from rfl] at hd
      exact absurd hd (by simp)

/-- Witness for C10 at a string-valued global. -/
theorem c10_get_document_witness : get_document (.str "x") = .ok none :=
  (c10_get_document_panics_on_non_table (.str "x")).1 (Or.inl ⟨"x", rfl⟩)

theorem keys_cons (k : String) (v : Bson) (rest : BsonFields) :
    (BsonFields.cons k v rest).keys = k :: rest.keys := rfl

theorem pairsFromLua_fieldsToLua :
    ∀ (d : BsonFields),
      (∀ kv ∈ d.toList, LuaBsonRepr.from_lua (LuaBsonRepr.to_lua kv.2) = .ok kv.2) →
      pairsFromLua (fieldsToLua d) = .ok d.toList
  | .nil, _ => rfl
  | .cons k v rest, hIH => by
    have h1 : LuaBsonRepr.from_lua (LuaBsonRepr.to_lua v) = .ok v :=
      hIH (k, v) (by simp [BsonFields.toList])
    have h2 := pairsFromLua_fieldsToLua rest
      (fun kv hkv => hIH kv (by simp [BsonFields.toList, hkv]))
    have h3 : coerceToString (.str k) = .ok k := rfl
    simp only [fieldsToLua, pairsFromLua, h3, h1, h2, BsonFields.toList]

theorem tableGet_fieldsToLua :
    ∀ (d : BsonFields) (s : String), s ∉ d.keys →
      tableGet (fieldsToLua d) (.str s) = .nil
  | .nil, s, _ => rfl
  | .cons k v rest, s, hs => by
    rw [keys_cons] at hs
    have hne : (LuaValue.str k) ≠ (.str s) := by
      intro h
      apply hs
      have hks : k = s := by injection h
      simp [hks]
    simp only [fieldsToLua, tableGet, if_neg hne]
    exact tableGet_fieldsToLua rest s (fun hmem => hs (by simp [hmem]))

theorem BsonFields.append_nil : ∀ (d : BsonFields), d.append .nil = d
  | .nil => rfl
  | .cons k v rest => by rw [BsonFields.append, BsonFields.append_nil rest]

theorem BsonFields.append_assoc :
    ∀ (a b c : BsonFields), (a.append b).append c = a.append (b.append c)
  | .nil, _, _ => rfl
  | .cons k v rest, b, c => by
    simp only [BsonFields.append]
    rw [BsonFields.append_assoc rest b c]

theorem BsonFields.toList_ofList : ∀ (l : List (String × Bson)), (BsonFields.ofList l).toList = l
  | [] => rfl
  | (k, v) :: rest => by
    simp only [BsonFields.ofList, BsonFields.toList]
    rw [BsonFields.toList_ofList rest]

theorem BsonFields.ofList_toList : ∀ (d : BsonFields), BsonFields.ofList d.toList = d
  | .nil => rfl
  | .cons k v rest => by
    simp only [BsonFields.toList, BsonFields.ofList]
    rw [BsonFields.ofList_toList rest]

theorem BsonFields.keys_append : ∀ (a b : BsonFields), (a.append b).keys = a.keys ++ b.keys
  | .nil, b => rfl
  | .cons k v rest, b => by
    simp only [BsonFields.append, keys_cons]
    rw [BsonFields.keys_append rest b]
    rfl

theorem docInsert_fresh :
    ∀ (d : BsonFields) (k : String) (v : Bson), k ∉ d.keys →
      docInsert d k v = d.append (.cons k v .nil)
  | .nil, k, v, _ => rfl
  | .cons k2 v2 rest, k, v, h => by
    rw [keys_cons] at h
    have hne : k2 ≠ k := by
      intro hEq
      exact h (by simp [hEq])
    simp only [docInsert, if_neg hne, BsonFields.append]
    rw [docInsert_fresh rest k v (fun hmem => h (by simp [hmem]))]

theorem collectDoc_go :
    ∀ (pairs : List (String × Bson)) (acc : BsonFields),
      (acc.keys ++ pairs.map Prod.fst).Nodup →
      List.foldl (fun d kv => docInsert d kv.1 kv.2) acc pairs
        = acc.append (BsonFields.ofList pairs) := by
  intro pairs
  induction pairs with
  | nil =>
    intro acc _
    simp [BsonFields.ofList, BsonFields.append_nil]
  | cons kv rest ih =>
    intro acc hnodup
    obtain ⟨k, v⟩ := kv
    have hk : k ∉ acc.keys := by
      intro hmem
      have h1 : k ∈ List.map Prod.fst ((k, v) :: rest) := by simp
      exact (List.disjoint_of_nodup_append hnodup) hmem h1
    simp only [List.foldl_cons]
    rw [docInsert_fresh acc k v hk]
    have hkeys : (acc.append (.cons k v .nil)).keys = acc.keys ++ [k] := by
      rw [BsonFields.keys_append]
      rfl
    have hnodup2 : ((acc.append (.cons k v .nil)).keys ++ rest.map Prod.fst).Nodup := by
      rw [hkeys, List.append_assoc, List.singleton_append]
      simpa using hnodup
    rw [ih (acc.append (.cons k v .nil)) hnodup2, BsonFields.append_assoc]
    rfl

theorem collectDoc_toList (d : BsonFields) (hnodup : d.keys.Nodup) :
    collectDoc d.toList = d := by
  have h := collectDoc_go d.toList .nil (by simpa [BsonFields.keys] using hnodup)
  rw [collectDoc, h, BsonFields.ofList_toList]
  rfl

theorem appendEntries_nil : ∀ (t : LuaEntries), appendEntries t .nil = t
  | .nil => rfl
  | .cons k v rest => by
    simp only [appendEntries]
    rw [appendEntries_nil rest]

theorem appendEntries_assoc :
    ∀ (a b c : LuaEntries), (appendEntries (appendEntries a b) c)
      = appendEntries a (appendEntries b c)
  | .nil, _, _ => rfl
  | .cons k v rest, b, c => by
    simp only [appendEntries]
    rw [appendEntries_assoc rest b c]

theorem entryKeys_append :
    ∀ (a b : LuaEntries), entryKeys (appendEntries a b) = entryKeys a ++ entryKeys b
  | .nil, b => rfl
  | .cons k v rest, b => by
    simp only [appendEntries, entryKeys]
    rw [entryKeys_append rest b]
    rfl

theorem tableSet_fresh :
    ∀ (t : LuaEntries) (k v : LuaValue), k ∉ entryKeys t →
      tableSet t k v = appendEntries t (.cons k v .nil)
  | .nil, k, v, _ => rfl
  | .cons k2 v2 rest, k, v, h => by
    have hne : k2 ≠ k := by
      intro hEq
      exact h (by simp [entryKeys, hEq])
    simp only [tableSet, if_neg hne, appendEntries]
    rw [tableSet_fresh rest k v (fun hmem => h (by simp [entryKeys, hmem]))]

theorem loadFields_eq :
    ∀ (d : BsonFields) (acc : LuaEntries),
      (∀ s ∈ d.keys, (LuaValue.str s) ∉ entryKeys acc) → d.keys.Nodup →
      loadFields acc d = appendEntries acc (fieldsToLua d)
  | .nil, acc, _, _ => by
    simp only [loadFields, fieldsToLua]
    exact (appendEntries_nil acc).symm
  | .cons k v rest, acc, hdisj, hnodup => by
    rw [keys_cons] at hdisj hnodup
    have hk : (LuaValue.str k) ∉ entryKeys acc := hdisj k (by simp)
    simp only [loadFields]
    rw [tableSet_fresh acc (.str k) (LuaBsonRepr.to_lua v) hk]
    have hdisj2 : ∀ s ∈ rest.keys, (LuaValue.str s) ∉
        entryKeys (appendEntries acc (.cons (.str k) (LuaBsonRepr.to_lua v) .nil)) := by
      intro s hs hmem
      rw [entryKeys_append] at hmem
      rcases List.mem_append.mp hmem with hmem | hmem
      · exact hdisj s (by simp [hs]) hmem
      · have hsk : s = k := by
          simp only [entryKeys, List.mem_cons] at hmem
          rcases hmem with hmem | hmem
          · injection hmem
          · simp at hmem
        rw [List.nodup_cons] at hnodup
        exact hnodup.1 (hsk ▸ hs)
    rw [loadFields_eq rest _ hdisj2 (List.nodup_cons.mp hnodup).2, appendEntries_assoc]
    rfl

/-- Full round trip of the bridge on every variant the amended C1
covers, by induction on the `Preserved` derivation. -/
theorem from_lua_to_lua_preserved : ∀ (b : Bson), Preserved b →
    LuaBsonRepr.from_lua (LuaBsonRepr.to_lua b) = .ok b := by
  intro b hp
  induction hp with
  | string s => rfl
  | boolean b2 => rfl
  | int64 i => rfl
  | double bits => rfl
  | objectId bs h12 hb => exact from_lua_to_lua_objectId bs h12 hb
  | document d hnodup htag hvals ih =>
    have h1 : tableGet (fieldsToLua d) (.str "__type") = .nil := tableGet_fieldsToLua d _ htag
    have h2 : pairsFromLua (fieldsToLua d) = .ok d.toList :=
      pairsFromLua_fieldsToLua d (fun kv hkv => ih kv hkv)
    show LuaBsonRepr.from_lua (.table (fieldsToLua d)) = .ok (.document d)
    have h3 : coerceToString LuaValue.nil
        = .error (.fromLuaConversion "nil" "String" "expected string or coercible value") := rfl
    simp only [LuaBsonRepr.from_lua, h1, h3, h2]
    rw [collectDoc_toList d hnodup]

/-- C1 amended: loading a document, executing the empty script, and
harvesting the global back returns a document equal to the input for the
variants the bridge preserves - string, boolean, 64 bit integer, 64 bit
float, the 12 byte identifier, and nested documents of such values with
distinct keys avoiding the reserved `__type` tag. The claim as frozen
also lists 32 bit integers and ordered sequences, which the bridge does
not preserve (see the counterexample). -/
theorem c1_empty_script_round_trip (d : BsonFields) (hp : Preserved (.document d)) :
    run_empty_script d = .ok (some d) := by
  have hnodup : d.keys.Nodup := by
    cases hp with
    | document d2 hnodup2 htag2 hvals2 => exact hnodup2
  have hload : load_document d = LuaBsonRepr.to_lua (.document d) := by
    show LuaValue.table (loadFields .nil d) = .table (fieldsToLua d)
    rw [loadFields_eq d .nil (by intro s _; simp [entryKeys]) hnodup]
    rfl
  have hfl := from_lua_to_lua_preserved (.document d) hp
  show get_document (load_document d) = .ok (some d)
  rw [hload]
  simp only [get_document, hfl]
  rfl

/-- Witness for the amended C1 on a document containing every preserved
variant, including a nested document and an identifier. -/
theorem c1_empty_script_round_trip_witness :
    run_empty_script (.cons "s" (.string "v") (.cons "b" (.boolean true) (.cons "i" (.int64 7)
        (.cons "f" (.double 123) (.cons "o" (.objectId [0, 1, 2, 3, 4, 5, 6, 7, 8, 9, 10, 11])
          (.cons "n" (.document (.cons "k" (.string "w") .nil)) .nil))))))
      = .ok (some (.cons "s" (.string "v") (.cons "b" (.boolean true) (.cons "i" (.int64 7)
        (.cons "f" (.double 123) (.cons "o" (.objectId [0, 1, 2, 3, 4, 5, 6, 7, 8, 9, 10, 11])
          (.cons "n" (.document (.cons "k" (.string "w") .nil)) .nil))))))) := by
  apply c1_empty_script_round_trip
  apply Preserved.document
  · decide
  · decide
  · intro kv hkv
    simp only [BsonFields.toList, List.mem_cons, List.not_mem_nil, or_false] at hkv
    rcases hkv with rfl | rfl | rfl | rfl | rfl | rfl
    · exact Preserved.string "v"
    · exact Preserved.boolean true
    · exact Preserved.int64 7
    · exact Preserved.double 123
    · exact Preserved.objectId _ (by decide) (by decide)
    · apply Preserved.document
      · decide
      · decide
      · intro kv2 hkv2
        simp only [BsonFields.toList, List.mem_cons, List.not_mem_nil, or_false] at hkv2
        rcases hkv2 with rfl
        exact Preserved.string "w"

/-- C1 counterexample: a document holding a 32 bit integer and an
ordered sequence. The empty-script round trip widens `Int32 5` to
`Int64 5` (Lua has one integer type, and harvest always produces the 64
bit variant) and turns the sequence into a nested document keyed by the
decimal rendering of its 1-based position, since a Lua table read back
through `pairs` is always harvested as a map. The result differs from
the input in variant, not merely in order, so the two are unequal under
the host document equality as well. -/
theorem c1_empty_script_counterexample :
    run_empty_script (.cons "a" (.int32 5) (.cons "b" (.array (.cons (.string "x") .nil)) .nil))
      = .ok (some (.cons "a" (.int64 5)
          (.cons "b" (.document (.cons "1" (.string "x") .nil)) .nil))) ∧
    (BsonFields.cons "a" (.int64 5) (.cons "b" (.document (.cons "1" (.string "x") .nil)) .nil))
      ≠ (BsonFields.cons "a" (.int32 5) (.cons "b" (.array (.cons (.string "x") .nil)) .nil)) := by
  constructor
  · rfl
  · decide

end Dissbson
